import Mathlib

/-!
Verification of the training-orchestration core of a PyTorch YOLO tutorial
repository.  The definitions below are value-level shallow embeddings of the
control logic in `engine.py` (the three trainer classes `YoloTrainer`,
`RTMTrainer`, `DetrTrainer`) and of `YOLOvx.post_process` in
`models/detectors/yolovx/yolovx.py`.  Tensors are modelled as lists of exact
rationals, dictionaries as association lists, and the in-place dictionary
mutation performed by the target-refinement methods as an explicit object
store shared between caller and callee.
-/

namespace YoloSpec

/-- Python's builtin `round` and `numpy.round`: round half to even
(banker's rounding). -/
def pyRound (q : ℚ) : ℤ :=
  let f := ⌊q⌋
  let frac := q - f
  if frac < 1/2 then f
  else if 1/2 < frac then f + 1
  else if f % 2 = 0 then f else f + 1

theorem pyRound_intCast (n : ℤ) : pyRound (n : ℚ) = n := by
  simp [pyRound]

/-- `numpy.interp x [x0, x1] [y0, y1]` for an increasing breakpoint pair
`x0 < x1`: clamped to `y0` below `x0`, to `y1` above `x1`, linear in between. -/
def npInterp (x x0 x1 y0 y1 : ℚ) : ℚ :=
  if x ≤ x0 then y0
  else if x1 ≤ x then y1
  else y0 + (y1 - y0) * (x - x0) / (x1 - x0)

/-- Warmup learning rate of parameter group `j` in
`YoloTrainer.train_one_epoch` (identical code in `RTMTrainer`):
`np.interp(ni, [0, nw], [warmup_bias_lr if j == 0 else 0.0,
x['initial_lr'] * lf(epoch)])`. -/
def yoloWarmupLR (warmupBiasLR initialLR lfEpoch : ℚ) (j ni nw : ℕ) : ℚ :=
  npInterp ni 0 nw (if j = 0 then warmupBiasLR else 0) (initialLR * lfEpoch)

/-- Warmup learning rate of any parameter group in
`DetrTrainer.train_one_epoch`:
`np.interp(ni, [0, nw], [0.0, x['initial_lr'] * lf(epoch)])`.
There is no special case for the bias group `j = 0`. -/
def detrWarmupLR (initialLR lfEpoch : ℚ) (ni nw : ℕ) : ℚ :=
  npInterp ni 0 nw 0 (initialLR * lfEpoch)

theorem npInterp_left (x0 x1 y0 y1 : ℚ) : npInterp x0 x0 x1 y0 y1 = y0 := by
  simp [npInterp]

theorem npInterp_right (x0 x1 y0 y1 : ℚ) (h : x0 < x1) :
    npInterp x1 x0 x1 y0 y1 = y1 := by
  simp [npInterp, not_le.2 h]

theorem npInterp_neg (x x0 x1 y0 y1 : ℚ) :
    npInterp x x0 x1 (-y0) (-y1) = -npInterp x x0 x1 y0 y1 := by
  unfold npInterp
  split_ifs <;> ring

theorem npInterp_val_le (x x1 y0 y1 : ℚ) (_hx1 : 0 < x1) (hy : y0 ≤ y1) :
    y0 ≤ npInterp x 0 x1 y0 y1 ∧ npInterp x 0 x1 y0 y1 ≤ y1 := by
  unfold npInterp
  split_ifs with h1 h2
  · exact ⟨le_rfl, hy⟩
  · exact ⟨hy, le_rfl⟩
  · have hxpos : 0 < x := lt_of_not_le h1
    have hxlt : x < x1 := lt_of_not_le h2
    have hnn : 0 ≤ (y1 - y0) * (x - 0) / (x1 - 0) := by
      apply div_nonneg
      · exact mul_nonneg (sub_nonneg.2 hy) (by linarith)
      · linarith
    have hub : (y1 - y0) * (x - 0) / (x1 - 0) ≤ y1 - y0 := by
      rw [div_le_iff₀ (by linarith : (0:ℚ) < x1 - 0)]
      have := mul_le_mul_of_nonneg_left (by linarith : x - 0 ≤ x1 - 0)
        (sub_nonneg.2 hy)
      linarith
    constructor <;> linarith

theorem npInterp_mono (x x' x1 y0 y1 : ℚ) (hx1 : 0 < x1) (hy : y0 ≤ y1)
    (_hx : 0 ≤ x) (hxx : x ≤ x') (_hx' : x' ≤ x1) :
    npInterp x 0 x1 y0 y1 ≤ npInterp x' 0 x1 y0 y1 := by
  by_cases hA : x ≤ 0
  · calc npInterp x 0 x1 y0 y1 = y0 := by simp [npInterp, hA]
      _ ≤ npInterp x' 0 x1 y0 y1 := (npInterp_val_le x' x1 y0 y1 hx1 hy).1
  · by_cases hB : x1 ≤ x'
    · calc npInterp x 0 x1 y0 y1 ≤ y1 := (npInterp_val_le x x1 y0 y1 hx1 hy).2
        _ = npInterp x' 0 x1 y0 y1 := by
            have hx'0 : ¬ x' ≤ 0 := by intro h; exact hA (by linarith)
            simp [npInterp, hx'0, hB]
    · -- both interior
      have hA' : ¬ x' ≤ 0 := by intro h; exact hA (by linarith)
      have hC : ¬ x1 ≤ x := by intro h; exact hB (by linarith)
      have hlin : (y1 - y0) * (x - 0) / (x1 - 0) ≤ (y1 - y0) * (x' - 0) / (x1 - 0) := by
        apply div_le_div_of_nonneg_right ?_ (by linarith : (0:ℚ) ≤ x1 - 0)
        exact mul_le_mul_of_nonneg_left (by linarith) (sub_nonneg.2 hy)
      simp only [npInterp, if_neg hA, if_neg hA', if_neg hB, if_neg hC]
      linarith

/-- C1: Warmup learning-rate schedule.  In the `YoloTrainer`/`RTMTrainer`
warmup, for every fixed warmup target, each non-bias group's interpolated
learning rate starts at `0.0` and is monotonically non-decreasing on
`[0, nw]` provided the target `initial_lr * lf(epoch)` is non-negative, and
the bias group (group 0) starts at `warmup_bias_lr` and is monotonically
non-increasing provided the target is at most `warmup_bias_lr`.  In the
`DetrTrainer` variant, however, every group - including group 0 - starts at
`0.0` and is non-decreasing toward the same target: the bias special case
exists only in the yolo/rtmdet variants. -/
theorem C1_warmup_lr_schedule (wbl ilr lfE : ℚ) (nw ni ni' : ℕ)
    (hnw : 0 < nw) (hni : ni ≤ ni') (hni' : ni' ≤ nw)
    (htgt : 0 ≤ ilr * lfE) (hbias : ilr * lfE ≤ wbl) :
    (∀ j, j ≠ 0 → yoloWarmupLR wbl ilr lfE j 0 nw = 0 ∧
      yoloWarmupLR wbl ilr lfE j ni nw ≤ yoloWarmupLR wbl ilr lfE j ni' nw) ∧
    (yoloWarmupLR wbl ilr lfE 0 0 nw = wbl ∧
      yoloWarmupLR wbl ilr lfE 0 ni' nw ≤ yoloWarmupLR wbl ilr lfE 0 ni nw) ∧
    (detrWarmupLR ilr lfE 0 nw = 0 ∧
      detrWarmupLR ilr lfE ni nw ≤ detrWarmupLR ilr lfE ni' nw) := by
  have hnwQ : (0 : ℚ) < nw := by exact_mod_cast hnw
  have hniQ : (ni : ℚ) ≤ ni' := by exact_mod_cast hni
  have hni'Q : (ni' : ℚ) ≤ nw := by exact_mod_cast hni'
  have hni0 : (0 : ℚ) ≤ ni := by positivity
  have hni'0 : (0 : ℚ) ≤ ni' := by positivity
  refine ⟨fun j hj => ⟨?_, ?_⟩, ⟨?_, ?_⟩, ?_, ?_⟩
  · simp [yoloWarmupLR, hj, npInterp_left]
  · simpa [yoloWarmupLR, hj] using
      npInterp_mono ni ni' nw 0 (ilr * lfE) hnwQ htgt hni0 hniQ hni'Q
  · simp [yoloWarmupLR, npInterp_left]
  · have h := npInterp_mono ni ni' nw (-wbl) (-(ilr * lfE)) hnwQ
      (neg_le_neg hbias) hni0 hniQ hni'Q
    rw [npInterp_neg, npInterp_neg] at h
    simpa [yoloWarmupLR] using neg_le_neg_iff.1 h
  · simp [detrWarmupLR, npInterp_left]
  · simpa [detrWarmupLR] using
      npInterp_mono ni ni' nw 0 (ilr * lfE) hnwQ htgt hni0 hniQ hni'Q

/-- Witness for C1 at a concrete input: `warmup_bias_lr = 1/10`,
`initial_lr * lf(epoch) = 1/100`, warmup window 100, steps 3 ≤ 7. -/
theorem C1_warmup_lr_schedule_witness :
    0 < 100 ∧ 3 ≤ 7 ∧ 7 ≤ 100 ∧ (0 : ℚ) ≤ 1/100 * 1 ∧ (1/100 * 1 : ℚ) ≤ 1/10 ∧
    (yoloWarmupLR (1/10) (1/100) 1 2 3 100 ≤ yoloWarmupLR (1/10) (1/100) 1 2 7 100 ∧
     yoloWarmupLR (1/10) (1/100) 1 0 7 100 ≤ yoloWarmupLR (1/10) (1/100) 1 0 3 100) := by
  refine ⟨by norm_num, by norm_num, by norm_num, by norm_num, by norm_num, ?_, ?_⟩
  · exact ((C1_warmup_lr_schedule (1/10) (1/100) 1 100 3 7 (by norm_num) (by norm_num)
      (by norm_num) (by norm_num) (by norm_num)).1 2 (by norm_num)).2
  · exact ((C1_warmup_lr_schedule (1/10) (1/100) 1 100 3 7 (by norm_num) (by norm_num)
      (by norm_num) (by norm_num) (by norm_num)).2.1).2

/-- C1 counterexample: in the `DetrTrainer` variant the bias group does not
start from `warmup_bias_lr` and is not non-increasing: with
`warmup_bias_lr = 1/10` and target `1/100`, group 0's learning rate starts
at `0` and strictly increases between steps 0 and 50 of a 100-step window.
So the claimed bias behaviour does not hold in every trainer variant. -/
theorem C1_warmup_lr_schedule_counterexample :
    detrWarmupLR (1/100) 1 0 100 = 0 ∧
    detrWarmupLR (1/100) 1 0 100 ≠ 1/10 ∧
    detrWarmupLR (1/100) 1 0 100 < detrWarmupLR (1/100) 1 50 100 := by
  refine ⟨?_, ?_, ?_⟩ <;> norm_num [detrWarmupLR, npInterp]

/-- `accumulate = max(1, round(64 / self.args.batch_size))` as computed in
`YoloTrainer.__init__` and at the top of `YoloTrainer.train_one_epoch`
(the reference batch size 64 is kept as a parameter). -/
def accumulateTarget (refBS batchSize : ℚ) : ℤ :=
  max 1 (pyRound (refBS / batchSize))

/-- The per-step warmup ramp of the accumulation window in
`YoloTrainer.train_one_epoch`:
`accumulate = max(1, np.interp(ni, [0, nw], [1, 64 / batch_size]).round())`. -/
def warmupAccumulate (batchSize : ℚ) (ni nw : ℕ) : ℤ :=
  max 1 (pyRound (npInterp ni 0 nw 1 (64 / batchSize)))

/-- Shallow embedding of the `# Optimize` block of
`YoloTrainer.train_one_epoch`: on micro-batch `ni`, if
`ni - last_opt_step >= accumulate` the optimizer steps, the gradients are
zeroed exactly once, the EMA shadow is updated exactly once when a
`ModelEMA` was built, and `last_opt_step` is set to `ni`; otherwise nothing
in the block runs and `last_opt_step` is unchanged. -/
structure OptStep where
  fired : Bool
  zeroGradCount : ℕ
  emaUpdateCount : ℕ
  lastOptStep : ℤ
deriving Repr, DecidableEq

def yoloOptimize (ni lastOptStep accumulate : ℤ) (emaEnabled : Bool) : OptStep :=
  if accumulate ≤ ni - lastOptStep then
    { fired := true
      zeroGradCount := 1
      emaUpdateCount := if emaEnabled then 1 else 0
      lastOptStep := ni }
  else
    { fired := false
      zeroGradCount := 0
      emaUpdateCount := 0
      lastOptStep := lastOptStep }

/-- C2: With reference batch size 64 and actual batch size 16 the
accumulation target is 4 (also the value the warmup ramp reaches at the end
of a positive warmup window, while it starts at 1); and for every
micro-batch, an optimizer update fires if and only if
`ni - last_opt_step >= accumulate`, `last_opt_step` is set to `ni` exactly
when the update fires and is unchanged otherwise. -/
theorem C2_accumulation_controller (ni lastOpt acc : ℤ) (ema : Bool) (nw : ℕ)
    (hnw : 0 < nw) :
    accumulateTarget 64 16 = 4 ∧
    warmupAccumulate 16 0 nw = 1 ∧
    warmupAccumulate 16 nw nw = 4 ∧
    ((yoloOptimize ni lastOpt acc ema).fired = true ↔ acc ≤ ni - lastOpt) ∧
    ((yoloOptimize ni lastOpt acc ema).fired = true →
      (yoloOptimize ni lastOpt acc ema).lastOptStep = ni) ∧
    ((yoloOptimize ni lastOpt acc ema).fired = false →
      (yoloOptimize ni lastOpt acc ema).lastOptStep = lastOpt) := by
  have hnwQ : (0 : ℚ) < nw := by exact_mod_cast hnw
  have h416 : (64 / 16 : ℚ) = ((4 : ℤ) : ℚ) := by norm_num
  have h1c : (1 : ℚ) = ((1 : ℤ) : ℚ) := by norm_num
  refine ⟨?_, ?_, ?_, ?_, ?_, ?_⟩
  · rw [accumulateTarget, h416, pyRound_intCast]
    omega
  · rw [warmupAccumulate]
    simp only [Nat.cast_zero]
    rw [npInterp_left, h1c, pyRound_intCast]
    omega
  · rw [warmupAccumulate, npInterp_right 0 nw 1 (64 / 16) hnwQ, h416, pyRound_intCast]
    omega
  · by_cases h : acc ≤ ni - lastOpt <;> simp [yoloOptimize, h]
  · by_cases h : acc ≤ ni - lastOpt <;> simp [yoloOptimize, h]
  · by_cases h : acc ≤ ni - lastOpt <;> simp [yoloOptimize, h]

/-- Witness for C2 at a concrete input: window 4 with `ni = 4`,
`last_opt_step = 0` fires and resets, while `ni = 3` does not fire. -/
theorem C2_accumulation_controller_witness :
    0 < 10 ∧
    accumulateTarget 64 16 = 4 ∧
    (yoloOptimize 4 0 4 true).fired = true ∧
    (yoloOptimize 4 0 4 true).lastOptStep = 4 ∧
    (yoloOptimize 3 0 4 true).fired = false ∧
    (yoloOptimize 3 0 4 true).lastOptStep = 0 := by
  have h4 := C2_accumulation_controller 4 0 4 true 10 (by norm_num)
  have h3 := C2_accumulation_controller 3 0 4 true 10 (by norm_num)
  refine ⟨by norm_num, h4.1, ?_, ?_, ?_, ?_⟩
  · exact (h4.2.2.2.1).2 (by decide)
  · exact h4.2.2.2.2.1 ((h4.2.2.2.1).2 (by decide))
  · cases hb : (yoloOptimize 3 0 4 true).fired with
    | false => rfl
    | true => exact absurd ((h3.2.2.2.1).1 hb) (by decide)
  · refine h3.2.2.2.2.2 ?_
    cases hb : (yoloOptimize 3 0 4 true).fired with
    | false => rfl
    | true => exact absurd ((h3.2.2.2.1).1 hb) (by decide)

/-- C3: In the accumulating `YoloTrainer` with EMA configured, the gradient
buffers are zeroed and the EMA shadow updated exactly once on a micro-batch
that fires an optimizer update, and neither happens on a skipped
accumulation micro-batch. -/
theorem C3_zero_grad_ema_on_update (ni lastOpt acc : ℤ) :
    ((yoloOptimize ni lastOpt acc true).fired = true →
      (yoloOptimize ni lastOpt acc true).zeroGradCount = 1 ∧
      (yoloOptimize ni lastOpt acc true).emaUpdateCount = 1) ∧
    ((yoloOptimize ni lastOpt acc true).fired = false →
      (yoloOptimize ni lastOpt acc true).zeroGradCount = 0 ∧
      (yoloOptimize ni lastOpt acc true).emaUpdateCount = 0) := by
  by_cases h : acc ≤ ni - lastOpt <;> simp [yoloOptimize, h]

/-- Witness for C3: firing batch (4, 0, window 4) zeroes and EMA-updates
once; skipped batch (3, 0, window 4) does neither. -/
theorem C3_zero_grad_ema_on_update_witness :
    (yoloOptimize 4 0 4 true).zeroGradCount = 1 ∧
    (yoloOptimize 4 0 4 true).emaUpdateCount = 1 ∧
    (yoloOptimize 3 0 4 true).zeroGradCount = 0 ∧
    (yoloOptimize 3 0 4 true).emaUpdateCount = 0 := by
  have h4 := (C3_zero_grad_ema_on_update 4 0 4).1 (by decide)
  have h3 := (C3_zero_grad_ema_on_update 3 0 4).2 (by decide)
  exact ⟨h4.1, h4.2, h3.1, h3.2⟩

/-- The size computation of `rescale_image_targets` (identical in all three
trainers): a draw `k` of `random.randrange(old_size * range[0],
old_size * range[1] + max_stride)` is floored to a stride multiple by
`k // max_stride * max_stride`. -/
def newImgSize (maxStride k : ℕ) : ℕ := k / maxStride * maxStride

/-- The half-open draw range of
`random.randrange(old_size * range[0], old_size * range[1] + max_stride)`:
the lower bound is inclusive, the upper bound exclusive. -/
def msDraw (oldSize maxStride : ℕ) (lo hi : ℚ) (k : ℕ) : Prop :=
  (oldSize : ℚ) * lo ≤ k ∧ (k : ℚ) < oldSize * hi + maxStride

/-- C4 (amended): with `old_size = 640`, `stride = 32` and scale range
`[0.5, 1.5]`, every draw produces a size that is a multiple of 32 in
`[320, 960]`, and every multiple of 32 in `[320, 960]` is producible (the
draw `k = m` produces `m`).  The top of the claimed interval is 960, not
992. -/
theorem C4_multi_scale_sizes (k m : ℕ) (hk : msDraw 640 32 (1/2) (3/2) k)
    (hm : 32 ∣ m) (hm1 : 320 ≤ m) (hm2 : m ≤ 960) :
    (32 ∣ newImgSize 32 k ∧ 320 ≤ newImgSize 32 k ∧ newImgSize 32 k ≤ 960) ∧
    (msDraw 640 32 (1/2) (3/2) m ∧ newImgSize 32 m = m) := by
  obtain ⟨hlo, hhi⟩ := hk
  have hkl : 320 ≤ k := by
    have : ((320 : ℕ) : ℚ) ≤ (k : ℚ) := by push_cast at hlo ⊢; linarith
    exact_mod_cast this
  have hku : k < 992 := by
    have : (k : ℚ) < ((992 : ℕ) : ℚ) := by push_cast at hhi ⊢; linarith
    exact_mod_cast this
  refine ⟨⟨dvd_mul_left 32 (k / 32), ?_, ?_⟩, ⟨?_, ?_⟩, ?_⟩
  · have h10 : 10 ≤ k / 32 := by omega
    calc 320 = 10 * 32 := by norm_num
      _ ≤ k / 32 * 32 := Nat.mul_le_mul_right 32 h10
  · have h30 : k / 32 ≤ 30 := by omega
    calc k / 32 * 32 ≤ 30 * 32 := Nat.mul_le_mul_right 32 h30
      _ = 960 := by norm_num
  · show (640 : ℚ) * (1/2) ≤ (m : ℚ)
    have : ((320 : ℕ) : ℚ) ≤ (m : ℚ) := by exact_mod_cast hm1
    push_cast at this ⊢; linarith
  · show (m : ℚ) < 640 * (3/2) + 32
    have : (m : ℚ) ≤ ((960 : ℕ) : ℚ) := by exact_mod_cast hm2
    push_cast at this ⊢; linarith
  · exact Nat.div_mul_cancel hm

/-- Witness for C4: the boundary draw `k = 991` produces `960`; the
multiple `m = 960` is producible. -/
theorem C4_multi_scale_sizes_witness :
    (msDraw 640 32 (1/2) (3/2) 991 ∧ (32:ℕ) ∣ 960 ∧ 320 ≤ 960 ∧ 960 ≤ 960) ∧
    (32 ∣ newImgSize 32 991 ∧ 320 ≤ newImgSize 32 991 ∧ newImgSize 32 991 ≤ 960) ∧
    (msDraw 640 32 (1/2) (3/2) 960 ∧ newImgSize 32 960 = 960) := by
  have hd : msDraw 640 32 (1/2) (3/2) 991 := by
    constructor <;> norm_num [msDraw]
  have h := C4_multi_scale_sizes 991 960 hd (by norm_num) (by norm_num) (by norm_num)
  exact ⟨⟨hd, by norm_num, by norm_num, by norm_num⟩, h.1, h.2⟩

/-- C4 counterexample: no draw of `randrange(640 * 0.5, 640 * 1.5 + 32)`
produces the size 992, because the upper bound 992 of the draw is
exclusive: the largest draw is 991 and `991 // 32 * 32 = 960`.  The set of
producible sizes is therefore not all multiples of 32 in `[320, 992]`. -/
theorem C4_multi_scale_sizes_counterexample :
    newImgSize 32 991 = 960 ∧
    ¬ ∃ k : ℕ, msDraw 640 32 (1/2) (3/2) k ∧ newImgSize 32 k = 992 := by
  constructor
  · rfl
  · rintro ⟨k, ⟨_, hhi⟩, hk⟩
    have hku : k < 992 := by
      have : (k : ℚ) < ((992 : ℕ) : ℚ) := by push_cast at hhi ⊢; linarith
      exact_mod_cast this
    have : 992 ≤ k := by
      have h1 : k / 32 * 32 = 992 := hk
      omega
    omega

/-- `torch` tensors of shape `[N, 4]` holding corner-corner boxes are
modelled as lists of exact rational quadruples `(x1, y1, x2, y2)`. -/
structure Box where
  x1 : ℚ
  y1 : ℚ
  x2 : ℚ
  y2 : ℚ
deriving DecidableEq, Repr, Inhabited

/-- `tgt_boxes_wh = boxes[..., 2:] - boxes[..., :2]` followed by
`torch.min(tgt_boxes_wh, dim=-1)[0]`: the smaller of width and height. -/
def minTgtSize (b : Box) : ℚ := min (b.x2 - b.x1) (b.y2 - b.y1)

/-- `keep = (min_tgt_size >= min_box_size)`. -/
def keepBox (minBoxSize : ℚ) (b : Box) : Bool := minBoxSize ≤ minTgtSize b

/-- Boolean-mask indexing `t[keep]` of a tensor by a same-length mask. -/
def maskFilter : List Bool → List α → List α
  | [], _ => []
  | _, [] => []
  | b :: ms, a :: as => if b then a :: maskFilter ms as else maskFilter ms as

theorem maskFilter_map_self (p : α → Bool) (l : List α) :
    maskFilter (l.map p) l = l.filter p := by
  induction l with
  | nil => rfl
  | cons a as ih =>
      by_cases h : p a <;> simp [maskFilter, List.filter, h, ih]

theorem maskFilter_map_map (p : α → Bool) (f : α → β) (l : List α) :
    maskFilter (l.map p) (l.map f) = (l.filter p).map f := by
  induction l with
  | nil => rfl
  | cons a as ih =>
      by_cases h : p a <;> simp [maskFilter, List.filter, h, ih]

theorem maskFilter_zip (p : α → Bool) :
    ∀ (l : List α) (l2 : List β), l2.length = l.length →
      (maskFilter (l.map p) l).zip (maskFilter (l.map p) l2) =
        (l.zip l2).filter (fun q => p q.1)
  | [], l2, _ => by simp [maskFilter]
  | a :: as, [], h => by simp at h
  | a :: as, b :: bs, h => by
      have h' : bs.length = as.length := by simpa using h
      have ih := maskFilter_zip p as bs h'
      by_cases hp : p a <;>
        simpa [maskFilter, List.filter_cons, hp] using ih

theorem keepBox_eq_false (m : ℚ) (b : Box) (h : minTgtSize b < m) :
    keepBox m b = false := by
  simp only [keepBox, decide_eq_false_iff_not, not_le]
  exact h

theorem keepBox_eq_true (m : ℚ) (b : Box) (h : m ≤ minTgtSize b) :
    keepBox m b = true := by
  simp [keepBox, h]

/-- A per-image target dict value: the `"boxes"` and `"labels"` tensors. -/
structure Target where
  boxes : List Box
  labels : List ℕ
deriving DecidableEq, Repr

/-- `YoloTrainer.refine_targets` on one target dict (value level,
identical code in `RTMTrainer`): clone, compute the keep mask from the
smaller box side, index both tensors by the mask. -/
def refineTarget (minBoxSize : ℚ) (t : Target) : Target :=
  let keep := t.boxes.map (keepBox minBoxSize)
  { boxes := maskFilter keep t.boxes
    labels := maskFilter keep t.labels }

/-- `YoloTrainer.refine_targets` over the whole target list. -/
def refine_targets (minBoxSize : ℚ) (ts : List Target) : List Target :=
  ts.map (refineTarget minBoxSize)

/-- C5: the target filter with `min_box_size = 8` keeps exactly the
(box, label) entries whose smaller box side is at least 8: the surviving
box tensor is the filter of the original by `min(w, h) >= 8`, (box, label)
pairs survive exactly when the box does, a box of size `(6, 10)` is dropped
and a box of size `(8, 8)` is kept. -/
theorem C5_target_filter (t : Target) (hlen : t.labels.length = t.boxes.length) :
    (refineTarget 8 t).boxes = t.boxes.filter (keepBox 8) ∧
    ((refineTarget 8 t).boxes.zip (refineTarget 8 t).labels =
      (t.boxes.zip t.labels).filter (fun q => keepBox 8 q.1)) ∧
    (∀ b ∈ t.boxes, minTgtSize b < 8 → b ∉ (refineTarget 8 t).boxes) ∧
    (∀ b ∈ t.boxes, 8 ≤ minTgtSize b → b ∈ (refineTarget 8 t).boxes) ∧
    refineTarget 8 ⟨[⟨0, 0, 6, 10⟩], [1]⟩ = ⟨[], []⟩ ∧
    refineTarget 8 ⟨[⟨0, 0, 8, 8⟩], [1]⟩ = ⟨[⟨0, 0, 8, 8⟩], [1]⟩ := by
  have hb : (refineTarget 8 t).boxes = t.boxes.filter (keepBox 8) :=
    maskFilter_map_self (keepBox 8) t.boxes
  refine ⟨hb, ?_, ?_, ?_, ?_, ?_⟩
  · exact maskFilter_zip (keepBox 8) t.boxes t.labels hlen
  · intro b hbm hsmall hmem
    rw [hb] at hmem
    have := List.of_mem_filter hmem
    simp only [keepBox, decide_eq_true_eq] at this
    linarith
  · intro b hbm hbig
    rw [hb]
    exact List.mem_filter.2 ⟨hbm, by simp [keepBox, hbig]⟩
  · have h1 : keepBox 8 ⟨0, 0, 6, 10⟩ = false :=
      keepBox_eq_false 8 _ (by norm_num [minTgtSize, min_def])
    simp [refineTarget, maskFilter, h1]
  · have h2 : keepBox 8 ⟨0, 0, 8, 8⟩ = true :=
      keepBox_eq_true 8 _ (by norm_num [minTgtSize, min_def])
    simp [refineTarget, maskFilter, h2]

/-- Witness for C5 on a concrete two-entry target: the `(6, 10)` box (and
its label) is dropped, the `(8, 8)` box is kept. -/
theorem C5_target_filter_witness :
    ([1, 2] : List ℕ).length = ([⟨0, 0, 6, 10⟩, ⟨0, 0, 8, 8⟩] : List Box).length ∧
    (refineTarget 8 ⟨[⟨0, 0, 6, 10⟩, ⟨0, 0, 8, 8⟩], [1, 2]⟩).boxes =
      ([⟨0, 0, 6, 10⟩, ⟨0, 0, 8, 8⟩] : List Box).filter (keepBox 8) ∧
    refineTarget 8 ⟨[⟨0, 0, 6, 10⟩], [1]⟩ = ⟨[], []⟩ ∧
    refineTarget 8 ⟨[⟨0, 0, 8, 8⟩], [1]⟩ = ⟨[⟨0, 0, 8, 8⟩], [1]⟩ := by
  have h := C5_target_filter ⟨[⟨0, 0, 6, 10⟩, ⟨0, 0, 8, 8⟩], [1, 2]⟩ (by simp)
  exact ⟨by simp, h.1, h.2.2.2.2.1, h.2.2.2.2.2⟩

/-- The `# xyxy -> cxcywh` and `# normalize` block of
`DetrTrainer.refine_targets` / `DetrTrainer.rescale_image_targets`:
`new_boxes[..., :2] = (boxes[..., 2:] + boxes[..., :2]) * 0.5`,
`new_boxes[..., 2:] = boxes[..., 2:] - boxes[..., :2]`,
`new_boxes /= img_size`. -/
def xyxyToCxcywhNorm (imgSize : ℚ) (b : Box) : Box :=
  { x1 := (b.x2 + b.x1) * (1/2) / imgSize
    y1 := (b.y2 + b.y1) * (1/2) / imgSize
    x2 := (b.x2 - b.x1) / imgSize
    y2 := (b.y2 - b.y1) / imgSize }

/-- The box pipeline of `DetrTrainer.refine_targets` for one target, as the
source orders it: the keep mask is computed from the original corner-corner
coordinates, then *all* boxes are converted and normalized, and finally the
converted tensor is indexed by the mask (`new_boxes[keep]`). -/
def detrRefineBoxes (minBoxSize imgSize : ℚ) (boxes : List Box) : List Box :=
  let keep := boxes.map (keepBox minBoxSize)
  let newBoxes := boxes.map (xyxyToCxcywhNorm imgSize)
  maskFilter keep newBoxes

/-- `torch.clamp(boxes, 0, old_img_size)` on one coordinate. -/
def clampQ (lo hi v : ℚ) : ℚ := max lo (min v hi)

/-- `torch.clamp(boxes, 0, old_img_size)` on one box. -/
def clampBox (lo hi : ℚ) (b : Box) : Box :=
  ⟨clampQ lo hi b.x1, clampQ lo hi b.y1, clampQ lo hi b.x2, clampQ lo hi b.y2⟩

/-- `boxes[:, [0, 2]] = boxes[:, [0, 2]] / old_img_size * new_img_size` (and
likewise for the y axis). -/
def rescaleBox (oldS newS : ℚ) (b : Box) : Box :=
  ⟨b.x1 / oldS * newS, b.y1 / oldS * newS, b.x2 / oldS * newS, b.y2 / oldS * newS⟩

/-- The box pipeline of `DetrTrainer.rescale_image_targets` for one target:
clamp to the old image bounds, rescale both axes, compute the keep mask
from the rescaled corner-corner coordinates, convert all rescaled boxes to
normalized center-size form, and index the converted tensor by the mask. -/
def detrRescaleBoxes (minBoxSize oldS newS : ℚ) (boxes : List Box) : List Box :=
  let rb := boxes.map (fun b => rescaleBox oldS newS (clampBox 0 oldS b))
  let keep := rb.map (keepBox minBoxSize)
  maskFilter keep (rb.map (xyxyToCxcywhNorm newS))

/-- C7: in the DETR trainer the returned boxes equal the result of first
dropping the sub-threshold boxes and then converting and normalizing
exactly the surviving boxes - for `refine_targets` (filter on the original
pixel boxes, normalize by the fixed image size) and for
`rescale_image_targets` (filter on the clamped-and-rescaled boxes,
normalize by the new image size). -/
theorem C7_convert_after_filter (minBoxSize imgSize oldS newS : ℚ)
    (boxes : List Box) :
    detrRefineBoxes minBoxSize imgSize boxes =
      (boxes.filter (keepBox minBoxSize)).map (xyxyToCxcywhNorm imgSize) ∧
    detrRescaleBoxes minBoxSize oldS newS boxes =
      ((boxes.map (fun b => rescaleBox oldS newS (clampBox 0 oldS b))).filter
        (keepBox minBoxSize)).map (xyxyToCxcywhNorm newS) := by
  exact ⟨maskFilter_map_map (keepBox minBoxSize) (xyxyToCxcywhNorm imgSize) boxes,
    maskFilter_map_map (keepBox minBoxSize) (xyxyToCxcywhNorm newS)
      (boxes.map (fun b => rescaleBox oldS newS (clampBox 0 oldS b)))⟩

/-- A target dict as the caller holds it: references (store indices) to the
`"boxes"` tensor and the `"labels"` tensor. -/
structure TgtRef where
  boxesId : ℕ
  labelsId : ℕ
deriving DecidableEq, Repr

/-- The object store shared by caller and callee: box tensors and label
tensors addressed by index, plus the target dicts, which are aliased - the
caller and `refine_targets` see the same dict objects, so rebinding
`tgt["boxes"]` is visible to the caller. -/
structure Store where
  boxHeap : List (List Box)
  labelHeap : List (List ℕ)
  dicts : List TgtRef
deriving DecidableEq, Repr

/-- One pass of a `refine_targets`-style loop over the aliased target
dicts: each dict's tensors are read from the store, the new filtered
tensors (`boxes[keep]`, `labels[keep]`) are fresh objects appended to the
store, and the dict is mutated in place to reference them. -/
def refineHeapGo (fB : List Box → List Box) (fL : List Box → List ℕ → List ℕ) :
    List TgtRef → List (List Box) → List (List ℕ) →
      List TgtRef × List (List Box) × List (List ℕ)
  | [], bh, lh => ([], bh, lh)
  | d :: ds, bh, lh =>
      let boxes := bh.getD d.boxesId []
      let labels := lh.getD d.labelsId []
      let r := refineHeapGo fB fL ds (bh ++ [fB boxes]) (lh ++ [fL boxes labels])
      (⟨bh.length, lh.length⟩ :: r.1, r.2.1, r.2.2)

/-- The new `"boxes"` tensor built by `YoloTrainer.refine_targets`:
`boxes.clone()` indexed by the keep mask (a fresh tensor). -/
def yoloNewBoxes (minBoxSize : ℚ) (boxes : List Box) : List Box :=
  maskFilter (boxes.map (keepBox minBoxSize)) boxes

/-- The new `"labels"` tensor built by `refine_targets` (both variants):
`labels` indexed by the keep mask computed from the boxes. -/
def newLabelsByKeep (minBoxSize : ℚ) (boxes : List Box) (labels : List ℕ) :
    List ℕ :=
  maskFilter (boxes.map (keepBox minBoxSize)) labels

/-- `YoloTrainer.refine_targets` acting on the shared object store. -/
def yoloRefineStore (minBoxSize : ℚ) (s : Store) : Store :=
  let r := refineHeapGo (yoloNewBoxes minBoxSize) (newLabelsByKeep minBoxSize)
    s.dicts s.boxHeap s.labelHeap
  ⟨r.2.1, r.2.2, r.1⟩

/-- `DetrTrainer.refine_targets` acting on the shared object store. -/
def detrRefineStore (minBoxSize imgSize : ℚ) (s : Store) : Store :=
  let r := refineHeapGo (detrRefineBoxes minBoxSize imgSize)
    (newLabelsByKeep minBoxSize) s.dicts s.boxHeap s.labelHeap
  ⟨r.2.1, r.2.2, r.1⟩

theorem refineHeapGo_heap_extend (fB : List Box → List Box)
    (fL : List Box → List ℕ → List ℕ) :
    ∀ (ds : List TgtRef) (bh : List (List Box)) (lh : List (List ℕ)),
      ∃ be le, (refineHeapGo fB fL ds bh lh).2.1 = bh ++ be ∧
        (refineHeapGo fB fL ds bh lh).2.2 = lh ++ le
  | [], bh, lh => ⟨[], [], by simp [refineHeapGo], by simp [refineHeapGo]⟩
  | d :: ds, bh, lh => by
      obtain ⟨be, le, h1, h2⟩ := refineHeapGo_heap_extend fB fL ds
        (bh ++ [fB (bh.getD d.boxesId [])])
        (lh ++ [fL (bh.getD d.boxesId []) (lh.getD d.labelsId [])])
      refine ⟨[fB (bh.getD d.boxesId [])] ++ be,
        [fL (bh.getD d.boxesId []) (lh.getD d.labelsId [])] ++ le, ?_, ?_⟩
      · rw [refineHeapGo]; rw [h1, List.append_assoc]
      · rw [refineHeapGo]; rw [h2, List.append_assoc]

theorem getD_append_lt {α : Type _} (l l' : List α) (i : ℕ) (d : α)
    (h : i < l.length) : (l ++ l').getD i d = l.getD i d := by
  induction l generalizing i with
  | nil => simp at h
  | cons a as ih =>
      cases i with
      | zero => rfl
      | succ n => exact ih n (by simpa using h)

/-- C6 (amended): the target filter clones (or never writes through) the
box and label tensors, so every tensor the caller referenced before the
call holds the same value afterwards - in the Yolo/RTM variant and in the
DETR variant alike.  (The dicts themselves are rebound, see the
counterexample.) -/
theorem C6_tensors_never_mutated (minBoxSize imgSize : ℚ) (s : Store)
    (i : ℕ) (hib : i < s.boxHeap.length) (hil : i < s.labelHeap.length) :
    (yoloRefineStore minBoxSize s).boxHeap.getD i [] = s.boxHeap.getD i [] ∧
    (yoloRefineStore minBoxSize s).labelHeap.getD i [] = s.labelHeap.getD i [] ∧
    (detrRefineStore minBoxSize imgSize s).boxHeap.getD i [] = s.boxHeap.getD i [] ∧
    (detrRefineStore minBoxSize imgSize s).labelHeap.getD i [] = s.labelHeap.getD i [] := by
  obtain ⟨be, le, h1, h2⟩ := refineHeapGo_heap_extend (yoloNewBoxes minBoxSize)
    (newLabelsByKeep minBoxSize) s.dicts s.boxHeap s.labelHeap
  obtain ⟨be', le', h1', h2'⟩ := refineHeapGo_heap_extend
    (detrRefineBoxes minBoxSize imgSize) (newLabelsByKeep minBoxSize)
    s.dicts s.boxHeap s.labelHeap
  refine ⟨?_, ?_, ?_, ?_⟩
  · show (refineHeapGo _ _ s.dicts s.boxHeap s.labelHeap).2.1.getD i [] = _
    rw [h1]; exact getD_append_lt _ _ i [] hib
  · show (refineHeapGo _ _ s.dicts s.boxHeap s.labelHeap).2.2.getD i [] = _
    rw [h2]; exact getD_append_lt _ _ i [] hil
  · show (refineHeapGo _ _ s.dicts s.boxHeap s.labelHeap).2.1.getD i [] = _
    rw [h1']; exact getD_append_lt _ _ i [] hib
  · show (refineHeapGo _ _ s.dicts s.boxHeap s.labelHeap).2.2.getD i [] = _
    rw [h2']; exact getD_append_lt _ _ i [] hil

/-- Witness for C6 on a one-dict store: tensor 0 is unchanged by both
variants. -/
theorem C6_tensors_never_mutated_witness :
    0 < 1 ∧
    (yoloRefineStore 8 ⟨[[⟨0, 0, 6, 10⟩]], [[5]], [⟨0, 0⟩]⟩).boxHeap.getD 0 [] =
      [⟨0, 0, 6, 10⟩] ∧
    (detrRefineStore 8 640 ⟨[[⟨0, 0, 6, 10⟩]], [[5]], [⟨0, 0⟩]⟩).labelHeap.getD 0 [] =
      [5] := by
  have h := C6_tensors_never_mutated 8 640 ⟨[[⟨0, 0, 6, 10⟩]], [[5]], [⟨0, 0⟩]⟩ 0
    (by simp) (by simp)
  exact ⟨by norm_num, h.1, h.2.2.2⟩

/-- C6 counterexample: the caller's target dict is NOT unchanged.  On the
store holding one dict whose box tensor is `[(0, 0, 6, 10)]` (smaller side
6 < 8), `YoloTrainer.refine_targets` rebinds the dict to fresh tensors
(`tgt["boxes"] = boxes[keep]` mutates the dict in place), so the dict the
caller holds differs after the call and the box set it observes changes
from one box to none. -/
theorem C6_dict_mutated_counterexample :
    (yoloRefineStore 8 ⟨[[⟨0, 0, 6, 10⟩]], [[5]], [⟨0, 0⟩]⟩).dicts ≠
      (⟨[[⟨0, 0, 6, 10⟩]], [[5]], [⟨0, 0⟩]⟩ : Store).dicts ∧
    (yoloRefineStore 8 ⟨[[⟨0, 0, 6, 10⟩]], [[5]], [⟨0, 0⟩]⟩).boxHeap.getD
      ((yoloRefineStore 8 ⟨[[⟨0, 0, 6, 10⟩]], [[5]], [⟨0, 0⟩]⟩).dicts.getD 0
        ⟨0, 0⟩).boxesId [] = [] ∧
    (⟨[[⟨0, 0, 6, 10⟩]], [[5]], [⟨0, 0⟩]⟩ : Store).boxHeap.getD
      (((⟨[[⟨0, 0, 6, 10⟩]], [[5]], [⟨0, 0⟩]⟩ : Store).dicts.getD 0
        ⟨0, 0⟩).boxesId) [] = [⟨0, 0, 6, 10⟩] := by
  have h1 : keepBox 8 ⟨0, 0, 6, 10⟩ = false :=
    keepBox_eq_false 8 _ (by norm_num [minTgtSize, min_def])
  refine ⟨?_, ?_, by simp⟩
  · simp [yoloRefineStore, refineHeapGo]
  · simp [yoloRefineStore, refineHeapGo, yoloNewBoxes, maskFilter, h1]

/-- A loss dictionary: `criterion(outputs, targets)` returns a dict of
named scalar loss terms including the aggregate key `"losses"`. -/
abbrev LossDict := List (String × ℚ)

/-- `d[k]` for a loss dict (first matching key; total with default 0). -/
def dictLookup (d : LossDict) (k : String) : ℚ :=
  match d.find? (fun kv => kv.1 == k) with
  | some kv => kv.2
  | none => 0

/-- In-place update of the tensor stored at key `k` (the Python
`losses *= bs` mutates the tensor object held by `loss_dict['losses']`). -/
def dictUpdate (d : LossDict) (k : String) (v : ℚ) : LossDict :=
  d.map (fun kv => if kv.1 == k then (kv.1, v) else kv)

theorem dictLookup_cons_self (kv : String × ℚ) (d : LossDict) (k : String)
    (h : (kv.1 == k) = true) : dictLookup (kv :: d) k = kv.2 := by
  simp [dictLookup, List.find?_cons_of_pos, h]

theorem dictLookup_cons_of_ne (kv : String × ℚ) (d : LossDict) (k : String)
    (h : (kv.1 == k) = false) : dictLookup (kv :: d) k = dictLookup d k := by
  have hf : List.find? (fun kv => kv.1 == k) (kv :: d) =
      List.find? (fun kv => kv.1 == k) d :=
    List.find?_cons_of_neg _ (by simp [h])
  simp only [dictLookup, hf]

theorem dictLookup_update_self (d : LossDict) (k : String) (v : ℚ)
    (h : k ∈ d.map Prod.fst) : dictLookup (dictUpdate d k v) k = v := by
  induction d with
  | nil => simp at h
  | cons kv d ih =>
      by_cases hk : kv.1 = k
      · have hu : dictUpdate (kv :: d) k v = (kv.1, v) :: dictUpdate d k v := by
          simp [dictUpdate, hk]
        rw [hu, dictLookup_cons_self _ _ _ (by simp [hk])]
      · have hbeq : (kv.1 == k) = false := by simp [hk]
        have h' : k ∈ d.map Prod.fst := by
          rcases (by simpa using h) with h0 | h0
          · exact absurd h0.symm hk
          · simpa using h0
        have hu : dictUpdate (kv :: d) k v = kv :: dictUpdate d k v := by
          simp [dictUpdate, hk]
        rw [hu, dictLookup_cons_of_ne _ _ _ hbeq]
        exact ih h'

theorem dictLookup_map_val (d : LossDict) (g : String × ℚ → ℚ) (k : String)
    (h : k ∈ d.map Prod.fst) :
    dictLookup (d.map (fun kv => (kv.1, g kv))) k = g (k, dictLookup d k) := by
  induction d with
  | nil => simp at h
  | cons kv d ih =>
      by_cases hk : kv.1 = k
      · subst hk
        rw [List.map_cons, dictLookup_cons_self _ _ _ (by simp),
          dictLookup_cons_self _ _ _ (by simp)]
      · have hbeq : (kv.1 == k) = false := by simp [hk]
        have h' : k ∈ d.map Prod.fst := by
          rcases (by simpa using h) with h0 | h0
          · exact absurd h0.symm hk
          · simpa using h0
        rw [List.map_cons, dictLookup_cons_of_ne _ _ _ (by simpa using hbeq),
          dictLookup_cons_of_ne _ _ _ hbeq]
        exact ih h'

theorem dictKeys_update (d : LossDict) (k : String) (v : ℚ) :
    (dictUpdate d k v).map Prod.fst = d.map Prod.fst := by
  induction d with
  | nil => rfl
  | cons kv d ih =>
      by_cases hk : kv.1 = k <;> simp [dictUpdate, hk] <;>
        simpa [dictUpdate] using ih

/-- Modelled from the spec: `utils.distributed_utils.reduce_dict` is not
under `src/`.  Section 4.8 (DistributedReducer): when running as a single
process, identity; when running distributed, averages every scalar value
across all participating processes (sum then divide by world size) and
returns a new dictionary with identical keys.  `peers` holds the other
processes' dictionaries at the collective call, so the world size is
`peers.length + 1`. -/
def reduce_dict (peers : List LossDict) (d : LossDict) : LossDict :=
  if peers.isEmpty then d
  else d.map (fun kv =>
    (kv.1, (kv.2 + (peers.map (fun p => dictLookup p kv.1)).sum) /
      ((peers.length : ℚ) + 1)))

/-- The observable outcome of the loss handling of one micro-batch. -/
structure LossPipeline where
  localDict : LossDict
  reducedDict : LossDict
  backwardLoss : ℚ
  logLine : List (String × ℚ)
deriving Repr

/-- Loss handling of one micro-batch in `YoloTrainer.train_one_epoch`:
`losses = loss_dict['losses']`, `losses *= images.shape[0]` (in place on
the tensor the local dict holds), `loss_dict_reduced =
reduce_dict(loss_dict)`, then in distributed mode `losses *= world_size`
(in place, local dict only); `scaler.scale(losses).backward()` receives the
local value; the log iterates `loss_dict_reduced.keys()` but formats
`loss_dict[k]`, dividing the `'losses'` entry by the world size in
distributed mode. -/
def yoloLossStep (loss_dict : LossDict) (bs : ℕ) (distributed : Bool)
    (peers : List LossDict) : LossPipeline :=
  let ws : ℚ := (peers.length : ℚ) + 1
  let d1 := dictUpdate loss_dict "losses" (dictLookup loss_dict "losses" * bs)
  let reduced := reduce_dict peers d1
  let d2 := if distributed then dictUpdate d1 "losses" (dictLookup d1 "losses" * ws)
            else d1
  { localDict := d2
    reducedDict := reduced
    backwardLoss := dictLookup d2 "losses"
    logLine := reduced.map (fun kv =>
      (kv.1, if kv.1 == "losses" && distributed then dictLookup d2 kv.1 / ws
             else dictLookup d2 kv.1)) }

/-- C8 (amended): in the distributed `YoloTrainer`, the loss passed to
backward is the local dict's `'losses'` value scaled by the batch size and
by the world size, with both scalings applied to the local dict only - the
reduced copy's `'losses'` stays the average of the per-process
batch-scaled values; but the periodic log line, while iterating the
reduced dict's keys, reports the LOCAL dict's values (dividing the
`'losses'` entry by the world size), not the reduced copy's values. -/
theorem C8_local_loss_backward_and_log (d : LossDict) (bs : ℕ)
    (peers : List LossDict) (hmem : "losses" ∈ d.map Prod.fst)
    (hne : peers ≠ []) :
    (yoloLossStep d bs true peers).backwardLoss =
      dictLookup d "losses" * bs * ((peers.length : ℚ) + 1) ∧
    dictLookup (yoloLossStep d bs true peers).reducedDict "losses" =
      (dictLookup d "losses" * bs +
        (peers.map (fun p => dictLookup p "losses")).sum) /
        ((peers.length : ℚ) + 1) ∧
    (yoloLossStep d bs true peers).logLine =
      (yoloLossStep d bs true peers).reducedDict.map (fun kv => (kv.1,
        if kv.1 == "losses"
        then dictLookup (yoloLossStep d bs true peers).localDict kv.1 /
          ((peers.length : ℚ) + 1)
        else dictLookup (yoloLossStep d bs true peers).localDict kv.1)) := by
  have hmem1 : "losses" ∈ (dictUpdate d "losses" (dictLookup d "losses" * bs)).map
      Prod.fst := by rw [dictKeys_update]; exact hmem
  have hl1 : dictLookup (dictUpdate d "losses" (dictLookup d "losses" * bs))
      "losses" = dictLookup d "losses" * bs := dictLookup_update_self d _ _ hmem
  have hl2 : dictLookup (dictUpdate (dictUpdate d "losses"
      (dictLookup d "losses" * bs)) "losses"
      (dictLookup (dictUpdate d "losses" (dictLookup d "losses" * bs)) "losses" *
        ((peers.length : ℚ) + 1))) "losses" =
      dictLookup d "losses" * bs * ((peers.length : ℚ) + 1) := by
    rw [dictLookup_update_self _ _ _ hmem1, hl1]
  have hpe : peers.isEmpty = false := by
    cases peers with
    | nil => exact absurd rfl hne
    | cons p ps => rfl
  refine ⟨?_, ?_, ?_⟩
  · simpa [yoloLossStep] using hl2
  · have := dictLookup_map_val (dictUpdate d "losses" (dictLookup d "losses" * bs))
      (fun kv => (kv.2 + (peers.map (fun p => dictLookup p kv.1)).sum) /
        ((peers.length : ℚ) + 1)) "losses" hmem1
    simp only [yoloLossStep, reduce_dict, hpe, Bool.false_eq_true, if_false]
    rw [this, hl1]
  · simp [yoloLossStep]

/-- Witness for C8's amendment at a concrete input: local dict
`{"losses": 1}`, batch size 2, one peer with `{"losses": 3}`: the backward
value is `1 * 2 * 2 = 4` and the reduced aggregate is `(2 + 3) / 2`. -/
theorem C8_local_loss_backward_and_log_witness :
    "losses" ∈ ([("losses", (1 : ℚ))].map Prod.fst) ∧
    ([[("losses", (3 : ℚ))]] : List LossDict) ≠ [] ∧
    (yoloLossStep [("losses", 1)] 2 true [[("losses", 3)]]).backwardLoss = 4 ∧
    dictLookup (yoloLossStep [("losses", 1)] 2 true
      [[("losses", 3)]]).reducedDict "losses" = 5/2 := by
  have h := C8_local_loss_backward_and_log [("losses", 1)] 2 [[("losses", 3)]]
    (by simp) (by simp)
  refine ⟨by simp, by simp, ?_, ?_⟩
  · rw [h.1]; norm_num [dictLookup]
  · rw [h.2.1]; norm_num [dictLookup]

/-- C8 counterexample: the periodic log line does not report values from
the reduced copy.  With local `{"losses": 1}`, batch size 1, one peer
holding `{"losses": 3}`, the reduced dict is `{"losses": 2}` but the log
line reports `{"losses": 1}` (the local value): the log iterates the
reduced dict's keys yet formats `loss_dict[k]` from the local dict. -/
theorem C8_log_not_reduced_counterexample :
    (yoloLossStep [("losses", 1)] 1 true [[("losses", 3)]]).reducedDict =
      [("losses", 2)] ∧
    (yoloLossStep [("losses", 1)] 1 true [[("losses", 3)]]).logLine =
      [("losses", 1)] ∧
    (yoloLossStep [("losses", 1)] 1 true [[("losses", 3)]]).logLine ≠
      (yoloLossStep [("losses", 1)] 1 true [[("losses", 3)]]).reducedDict := by
  refine ⟨?_, ?_, ?_⟩ <;>
    norm_num [yoloLossStep, reduce_dict, dictUpdate, dictLookup, List.find?]

/-- The save decision of the evaluator branch of `YoloTrainer.eval`
(identical in all three trainers): `if cur_map > self.best_map:` update
`best_map` to `cur_map` and write the fixed-name "best" checkpoint
(returning `true`), else leave both untouched (returning `false`). -/
def evalSaveStep (bestMap curMap : ℚ) : ℚ × Bool :=
  if bestMap < curMap then (curMap, true) else (bestMap, false)

/-- A run of successive evaluation saves starting from `best_map = b`
(initialized to `-1.0` in the trainers' constructors): returns the final
`best_map` and, per save, whether the "best" checkpoint was written. -/
def runEvalSaves : ℚ → List ℚ → ℚ × List Bool
  | b, [] => (b, [])
  | b, m :: ms =>
      let s := evalSaveStep b m
      let r := runEvalSaves s.1 ms
      (r.1, s.2 :: r.2)

theorem runEvalSaves_mono (ms : List ℚ) : ∀ b : ℚ, b ≤ (runEvalSaves b ms).1 := by
  induction ms with
  | nil => intro b; simp [runEvalSaves]
  | cons m ms ih =>
      intro b
      by_cases h : b < m
      · calc b ≤ m := le_of_lt h
          _ ≤ _ := by simpa [runEvalSaves, evalSaveStep, h] using ih m
      · simpa [runEvalSaves, evalSaveStep, h] using ih b

/-- C9: with an evaluator configured, a save with candidate metric `m`
writes the "best" checkpoint and sets `best_map` to `m` if and only if
`m > best_map`, and otherwise changes nothing; `best_map` is monotonically
non-decreasing over any run of saves; and starting from the initial
`best_map = -1`, the saves `0.10, 0.08, 0.15` write, skip, write. -/
theorem C9_checkpoint_best (b m : ℚ) (ms : List ℚ) :
    ((evalSaveStep b m).2 = true ↔ b < m) ∧
    ((evalSaveStep b m).2 = true → (evalSaveStep b m).1 = m) ∧
    ((evalSaveStep b m).2 = false → (evalSaveStep b m).1 = b) ∧
    b ≤ (runEvalSaves b ms).1 ∧
    runEvalSaves (-1) [10/100, 8/100, 15/100] = (15/100, [true, false, true]) := by
  refine ⟨?_, ?_, ?_, runEvalSaves_mono ms b, ?_⟩
  · by_cases h : b < m <;> simp [evalSaveStep, h]
  · by_cases h : b < m <;> simp [evalSaveStep, h]
  · by_cases h : b < m <;> simp [evalSaveStep, h]
  · norm_num [runEvalSaves, evalSaveStep]

/-- Witness for C9: the first save from `best_map = -1` with metric `0.10`
writes "best" and updates the metric. -/
theorem C9_checkpoint_best_witness :
    (evalSaveStep (-1) (10/100)).2 = true ∧
    (evalSaveStep (-1) (10/100)).1 = 10/100 ∧
    (-1 : ℚ) ≤ (runEvalSaves (-1) [10/100, 8/100, 15/100]).1 := by
  have h := C9_checkpoint_best (-1) (10/100) [10/100, 8/100, 15/100]
  have hw : (evalSaveStep (-1) (10/100)).2 = true := h.1.2 (by norm_num)
  exact ⟨hw, h.2.1 hw, h.2.2.2.1⟩

/-- One detection candidate produced by `YOLOvx.post_process` for a level:
the joint confidence score kept after thresholding and the label / anchor
index / box derived from the flattened score index. -/
structure Candidate where
  score : ℚ
  label : ℕ
  anchor : ℕ
  box : Box
deriving DecidableEq, Repr

/-- One pyramid level of `YOLOvx.post_process`: `scores` is the flattened
`sqrt(obj_pred.sigmoid() * cls_pred.sigmoid())` tensor of `H*W*C` joint
scores (the opaque numeric computation is taken as input), `boxPreds` the
`H*W` decoded boxes.  `num_topk = min(topk, box_pred.size(0))` top-sorted
scores are kept, those with score strictly above `conf_thresh` survive,
and for each surviving flattened index `idx` the label is
`idx % num_classes`, the anchor index `idx // num_classes`, the box
`box_pred[anchor]`. -/
def postProcessLevel (topk numClasses : ℕ) (confThresh : ℚ)
    (scores : List ℚ) (boxPreds : List Box) : List Candidate :=
  let numTopk := min topk boxPreds.length
  let sorted := scores.enum.mergeSort (fun a b => b.2 ≤ a.2)
  let top := sorted.take numTopk
  let kept := top.filter (fun p => confThresh < p.2)
  kept.map (fun p =>
    { score := p.2
      label := p.1 % numClasses
      anchor := p.1 / numClasses
      box := boxPreds.getD (p.1 / numClasses) default })

/-- C10: per pyramid level, `post_process` retains at most
`min(topk, H*W)` candidates, every score it passes on to NMS is strictly
greater than `conf_thresh`, and each candidate's label and anchor are
consistently derived from one flattened index
`idx = anchor * num_classes + label` within the score tensor, with the box
taken at that same anchor index. -/
theorem C10_post_process_topk_conf_index (topk numClasses : ℕ)
    (confThresh : ℚ) (scores : List ℚ) (boxPreds : List Box)
    (hC : 0 < numClasses) :
    (postProcessLevel topk numClasses confThresh scores boxPreds).length ≤
      min topk boxPreds.length ∧
    ∀ c ∈ postProcessLevel topk numClasses confThresh scores boxPreds,
      confThresh < c.score ∧
      c.label < numClasses ∧
      c.anchor * numClasses + c.label < scores.length ∧
      c.label = (c.anchor * numClasses + c.label) % numClasses ∧
      c.anchor = (c.anchor * numClasses + c.label) / numClasses ∧
      c.box = boxPreds.getD c.anchor default := by
  constructor
  · show (List.map _ _).length ≤ _
    rw [List.length_map]
    refine le_trans (List.length_filter_le _ _) ?_
    rw [List.length_take, List.length_mergeSort]
    exact min_le_left _ _
  · intro c hc
    simp only [postProcessLevel, List.mem_map] at hc
    obtain ⟨p, hp, rfl⟩ := hc
    obtain ⟨hp1, hp2⟩ := List.mem_filter.1 hp
    have hmem : p ∈ scores.enum :=
      List.mem_mergeSort.1 (List.mem_of_mem_take hp1)
    have hidx : p.1 < scores.length := List.fst_lt_of_mem_enum hmem
    have hconf : confThresh < p.2 := by simpa using hp2
    have hi : p.1 / numClasses * numClasses + p.1 % numClasses = p.1 :=
      Nat.div_add_mod' p.1 numClasses
    refine ⟨hconf, Nat.mod_lt _ hC, ?_, ?_, ?_, rfl⟩
    · show p.1 / numClasses * numClasses + p.1 % numClasses < scores.length
      rw [hi]; exact hidx
    · show p.1 % numClasses =
        (p.1 / numClasses * numClasses + p.1 % numClasses) % numClasses
      rw [hi]
    · show p.1 / numClasses =
        (p.1 / numClasses * numClasses + p.1 % numClasses) / numClasses
      rw [hi]

/-- Witness for C10 at a concrete level: 2 classes, `topk = 2`, one
anchor cell with joint scores `[3/4, 1/4]`, threshold `1/2`: a single
candidate survives, with label 0, anchor 0 and the level's only box. -/
theorem C10_post_process_topk_conf_index_witness :
    0 < 2 ∧
    (postProcessLevel 2 2 (1/2) [3/4, 1/4] [⟨0, 0, 8, 8⟩]).length ≤ min 2 1 ∧
    ∀ c ∈ postProcessLevel 2 2 (1/2) [3/4, 1/4] [⟨0, 0, 8, 8⟩],
      (1/2 : ℚ) < c.score ∧
      c.label < 2 ∧
      c.anchor * 2 + c.label < 2 ∧
      c.label = (c.anchor * 2 + c.label) % 2 ∧
      c.anchor = (c.anchor * 2 + c.label) / 2 ∧
      c.box = ([⟨0, 0, 8, 8⟩] : List Box).getD c.anchor default := by
  have h := C10_post_process_topk_conf_index 2 2 (1/2) [3/4, 1/4]
    [⟨0, 0, 8, 8⟩] (by norm_num)
  exact ⟨by norm_num, by simpa using h.1, h.2⟩

end YoloSpec
